import Mathlib

/-!
Verification of the chunking / extraction / recovery pipeline of
`api/process-terms.js` (clearpolicy-backend).

The embedding models JavaScript strings as `List Char`.  JSON values as
produced by `JSON.parse` are modelled syntactically: numeric literals are
kept as their source lexeme (no claim depends on numeric value semantics),
object members are kept in source order (no claim depends on duplicate-key
resolution), and `\u` escapes are decoded with `Char.ofNat` (no claim
involves surrogate escapes).
-/

namespace ClearPolicy

/-- Result value of a successful `JSON.parse`, modelled syntactically. -/
inductive Json : Type
  | null : Json
  | bool : Bool → Json
  | num : String → Json
  | str : String → Json
  | arr : List Json → Json
  | obj : List (String × Json) → Json

/-- JSON insignificant whitespace characters (ECMA-404): tab, LF, CR, space. -/
def isWsChar (c : Char) : Bool :=
  c == ' ' || c == '\t' || c == '\n' || c == '\r'

/-- Drop leading JSON whitespace. -/
def skipWs : List Char → List Char
  | [] => []
  | c :: rest => if isWsChar c then skipWs rest else c :: rest

/-- ASCII decimal digit test. -/
def isDigitChar (c : Char) : Bool :=
  48 ≤ c.toNat && c.toNat ≤ 57

/-- The opening brace character, `\x7b`. -/
def lbrace : Char := Char.ofNat 123

/-- The closing brace character, `\x7d`. -/
def rbrace : Char := Char.ofNat 125

/-- Single-character JSON string escapes: the quote, backslash and slash
stand for themselves, and the letters b, f, n, r, t stand for the control
characters 8, 12, 10, 13, 9. -/
def escMap : Char → Option Char
  | '"' => some '"'
  | '\\' => some '\\'
  | '/' => some '/'
  | 'b' => some (Char.ofNat 8)
  | 'f' => some (Char.ofNat 12)
  | 'n' => some (Char.ofNat 10)
  | 'r' => some (Char.ofNat 13)
  | 't' => some (Char.ofNat 9)
  | _ => none

/-- Value of a hexadecimal digit, if any. -/
def hexDigitVal (c : Char) : Option Nat :=
  let n := c.toNat
  if 48 ≤ n ∧ n ≤ 57 then some (n - 48)
  else if 65 ≤ n ∧ n ≤ 70 then some (n - 55)
  else if 97 ≤ n ∧ n ≤ 102 then some (n - 87)
  else none

/-- Parse the body of a JSON string (after the opening quote), returning the
decoded characters and the remaining input.  Raw control characters are
rejected, as `JSON.parse` does. -/
def parseStringBody : Nat → List Char → Option (List Char × List Char)
  | 0, _ => none
  | _ + 1, [] => none
  | fuel + 1, c :: rest =>
    if c == '"' then some ([], rest)
    else if c == '\\' then
      match rest with
      | [] => none
      | e :: rest2 =>
        if e == 'u' then
          match rest2 with
          | h1 :: h2 :: h3 :: h4 :: rest3 =>
            match hexDigitVal h1, hexDigitVal h2, hexDigitVal h3, hexDigitVal h4 with
            | some a, some b, some c2, some d =>
              match parseStringBody fuel rest3 with
              | some (s, r) =>
                some (Char.ofNat (((a * 16 + b) * 16 + c2) * 16 + d) :: s, r)
              | none => none
            | _, _, _, _ => none
          | _ => none
        else
          match escMap e with
          | some ch =>
            match parseStringBody fuel rest2 with
            | some (s, r) => some (ch :: s, r)
            | none => none
          | none => none
    else if c.toNat < 32 then none
    else
      match parseStringBody fuel rest with
      | some (s, r) => some (c :: s, r)
      | none => none

/-- Split off a maximal run of decimal digits. -/
def takeDigits : List Char → (List Char × List Char)
  | [] => ([], [])
  | c :: rest =>
    if isDigitChar c then
      let (d, r) := takeDigits rest
      (c :: d, r)
    else ([], c :: rest)

/-- Parse the optional fraction part of a JSON number. -/
def parseFrac (l : List Char) : Option (List Char × List Char) :=
  match l with
  | '.' :: rest =>
    match rest with
    | c :: _ =>
      if isDigitChar c then
        let (d, r) := takeDigits rest
        some ('.' :: d, r)
      else none
    | [] => none
  | _ => some ([], l)

/-- Parse the optional exponent part of a JSON number. -/
def parseExp (l : List Char) : Option (List Char × List Char) :=
  match l with
  | c :: rest =>
    if c == 'e' || c == 'E' then
      let (sgn, r1) :=
        match rest with
        | s :: r => if s == '+' || s == '-' then ([s], r) else ([], rest)
        | [] => ([], ([] : List Char))
      match r1 with
      | d :: _ =>
        if isDigitChar d then
          let (ds, r2) := takeDigits r1
          some (c :: (sgn ++ ds), r2)
        else none
      | [] => none
    else some ([], l)
  | [] => some ([], [])

/-- Parse a JSON number, returning its lexeme and the remaining input. -/
def parseNumberLex (l : List Char) : Option (List Char × List Char) :=
  let (sign, l1) :=
    match l with
    | c :: rest => if c == '-' then ([c], rest) else (([] : List Char), l)
    | [] => ([], [])
  match l1 with
  | [] => none
  | c :: rest =>
    if c == '0' then
      match parseFrac rest with
      | some (fr, r1) =>
        match parseExp r1 with
        | some (ex, r2) => some (sign ++ c :: (fr ++ ex), r2)
        | none => none
      | none => none
    else if isDigitChar c then
      let (d, r) := takeDigits rest
      match parseFrac r with
      | some (fr, r1) =>
        match parseExp r1 with
        | some (ex, r2) => some (sign ++ c :: (d ++ fr ++ ex), r2)
        | none => none
      | none => none
    else none

mutual

/-- Parse one JSON value (recursive descent on a fuel bound), per the grammar
implemented by `JSON.parse`. -/
def parseValue : Nat → List Char → Option (Json × List Char)
  | 0, _ => none
  | _ + 1, [] => none
  | _ + 1, 'n' :: 'u' :: 'l' :: 'l' :: rest => some (Json.null, rest)
  | _ + 1, 't' :: 'r' :: 'u' :: 'e' :: rest => some (Json.bool true, rest)
  | _ + 1, 'f' :: 'a' :: 'l' :: 's' :: 'e' :: rest => some (Json.bool false, rest)
  | fuel + 1, '"' :: rest =>
    match parseStringBody fuel rest with
    | some (s, r) => some (Json.str (String.mk s), r)
    | none => none
  | fuel + 1, '[' :: rest =>
    match skipWs rest with
    | ']' :: r2 => some (Json.arr [], r2)
    | r1 =>
      match parseElements fuel r1 with
      | some (vs, r2) => some (Json.arr vs, r2)
      | none => none
  | fuel + 1, c :: rest =>
    if c == lbrace then
      match skipWs rest with
      | [] => none
      | d :: r2 =>
        if d == rbrace then some (Json.obj [], r2)
        else
          match parseMembers fuel (d :: r2) with
          | some (ms, r3) => some (Json.obj ms, r3)
          | none => none
    else if c == '-' || isDigitChar c then
      match parseNumberLex (c :: rest) with
      | some (lex, r) => some (Json.num (String.mk lex), r)
      | none => none
    else none

/-- Parse the comma-separated elements of a non-empty JSON array, including
the closing bracket.  A comma must be followed by a value, so trailing
commas are rejected, as `JSON.parse` does. -/
def parseElements : Nat → List Char → Option (List Json × List Char)
  | 0, _ => none
  | fuel + 1, l =>
    match parseValue fuel l with
    | some (v, r) =>
      match skipWs r with
      | ']' :: r2 => some ([v], r2)
      | ',' :: r2 =>
        match parseElements fuel (skipWs r2) with
        | some (vs, r3) => some (v :: vs, r3)
        | none => none
      | _ => none
    | none => none

/-- Parse the comma-separated members of a non-empty JSON object, including
the closing brace.  A comma must be followed by a string key, so trailing
commas are rejected, as `JSON.parse` does. -/
def parseMembers : Nat → List Char → Option (List (String × Json) × List Char)
  | 0, _ => none
  | fuel + 1, '"' :: rest =>
    match parseStringBody fuel rest with
    | some (k, r1) =>
      match skipWs r1 with
      | ':' :: r2 =>
        match parseValue fuel (skipWs r2) with
        | some (v, r3) =>
          match skipWs r3 with
          | [] => none
          | c :: r5 =>
            if c == rbrace then some ([(String.mk k, v)], r5)
            else if c == ',' then
              match parseMembers fuel (skipWs r5) with
              | some (ms, r6) => some ((String.mk k, v) :: ms, r6)
              | none => none
            else none
        | none => none
      | _ => none
    | none => none
  | _ + 1, _ => none

end

/-- The model of `JSON.parse`: skip surrounding whitespace, parse one value,
and require the input to be exhausted. -/
def parseJSONL (l : List Char) : Option Json :=
  match parseValue (2 * l.length + 2) (skipWs l) with
  | some (v, r) => if skipWs r = [] then some v else none
  | none => none

/-- Index of the first character satisfying `p`, if any. -/
def firstIdx (p : Char → Bool) : List Char → Option Nat
  | [] => none
  | c :: rest => if p c then some 0 else (firstIdx p rest).map (· + 1)

/-- The slice of `l` from offset `s` (inclusive) to offset `e` (exclusive),
as in the JavaScript `String.prototype.slice` for in-range offsets. -/
def sliceList (l : List Char) (s e : Nat) : List Char :=
  (l.drop s).take (e - s)

/-- The match of the regular expression used at lines 140 and 175 of
`api/process-terms.js`: with the dot-all flag and a greedy star, the match
runs from the first occurrence of the opening bracket to the last
occurrence of the closing bracket, and exists exactly when some closing
bracket occurs strictly after the first opening bracket. -/
def extractArray (l : List Char) : Option (List Char) :=
  match firstIdx (fun c => c == '[') l, firstIdx (fun c => c == ']') l.reverse with
  | some a, some k =>
    if a < l.length - 1 - k then some (sliceList l a (l.length - 1 - k + 1))
    else none
  | _, _ => none

/-- Smart-quote test, for the character classes of the two replacements in
`fixJSON`. -/
def isSmartQuote (c : Char) : Bool :=
  (c == '“' || c == '”') || (c == '‘' || c == '’')

/-- Replacement of one character performed by the two chained `replace`
calls of `fixJSON`: smart double quotes become plain double quotes, smart
single quotes become plain apostrophes. -/
def smartRep (c : Char) : Char :=
  if c == '“' || c == '”' then '"'
  else if c == '‘' || c == '’' then '\''
  else c

/-- The quote-normalisation step of `fixJSON`. -/
def replaceSmartQuotes (l : List Char) : List Char :=
  l.map smartRep

/-- Characters kept by the control-character removal step of `fixJSON`
(`replace(/[\u0000-\u001F]+/g, "")` removes exactly the characters with
code below 32). -/
def keepChar (c : Char) : Bool :=
  !(c.toNat < 32)

/-- The control-character removal step of `fixJSON`. -/
def stripControl (l : List Char) : List Char :=
  l.filter keepChar

/-- The repair chain of `fixJSON` as a string transformation, in source
order: re-extract the bracketed substring, normalise smart quotes, then
strip control characters.  `none` models the `TypeError` thrown (and
caught) when no bracketed substring exists. -/
def repairChain (l : List Char) : Option (List Char) :=
  (extractArray l).map (fun a => stripControl (replaceSmartQuotes a))

/-- `fixJSON` of `api/process-terms.js` (lines 172-191): run the repair
chain, then re-attempt `JSON.parse`; any failure yields `null`. -/
def fixJSON (jsonString : List Char) : Option Json :=
  match repairChain jsonString with
  | some cleaned => parseJSONL cleaned
  | none => none

/-- Message of the error thrown at line 145 of `api/process-terms.js` when
no bracketed substring is found in the response. -/
def errNoArray : String :=
  "Failed to extract JSON array from OpenAI response."

/-- Message of the error thrown at line 159 of `api/process-terms.js` when
both the direct parse and `fixJSON` fail. -/
def errParseFix : String :=
  "Failed to parse and fix JSON from OpenAI response."

/-- Parse the extracted substring directly; on failure run `fixJSON`; if
both fail, fail with the fixed message of line 159.  This is the
try/catch block at lines 148-161 of `api/process-terms.js`. -/
def parseElseRepair (sub : List Char) : Except String Json :=
  match parseJSONL sub with
  | some v => Except.ok v
  | none =>
    match fixJSON sub with
    | some v => Except.ok v
    | none => Except.error errParseFix

/-- The response-handling portion of `processChunk` (lines 135-161 of
`api/process-terms.js`): extract the bracketed substring of the raw model
response, then parse it, repairing once on failure.  The prompt-building
and the external API call upstream of line 135 are external collaborators;
the chunk ordinal parameter of `processChunk` is used only inside the
prompt, so it is unused here.  The `trim()` at line 135 only removes
leading and trailing whitespace and cannot change the result of the
bracket extraction. -/
def recoverChunk (response : List Char) (_ordinal : Option Nat) : Except String Json :=
  match extractArray response with
  | none => Except.error errNoArray
  | some sub => parseElseRepair sub

/-- Ceiling division on naturals, as `Math.ceil(len / B)` for positive `B`. -/
def ceilDiv (a b : Nat) : Nat :=
  (a + b - 1) / b

/-- One segment of the document, per the data model of the spec: ordinal
index, start offset, end offset, text slice. -/
structure Segment where
  index : Nat
  startOffset : Nat
  endOffset : Nat
  text : List Char

/-- The segmentation performed by `summarizePolicy` (lines 35-59 of
`api/process-terms.js`): a single whole-document segment when the length
is within the budget, otherwise `Math.ceil(len / B)` fixed-size windows
`slice(i * B, min(i * B + B, len))`. -/
def segment (doc : List Char) (B : Nat) : List Segment :=
  if doc.length ≤ B then
    [⟨0, 0, doc.length, doc⟩]
  else
    (List.range (ceilDiv doc.length B)).map (fun i =>
      ⟨i, i * B, min (i * B + B) doc.length,
        sliceList doc (i * B) (min (i * B + B) doc.length)⟩)

/-- The context window and output budget of the configured model
(`TOKEN_LIMITS["gpt-4o-mini"]`) give the fixed character budget
`maxInputChars = (128000 - 16384) * 4` of `summarizePolicy`. -/
def maxInputChars : Nat :=
  (128000 - 16384) * 4

/-- JavaScript `Array.prototype.concat` semantics for one argument: an
array spreads its elements, any other value is appended as one element. -/
def toBatch : Json → List Json
  | Json.arr l => l
  | v => [v]

/-- The chunk loop of `summarizePolicy` (lines 46-58): process chunk `i`
with ordinal `i + 1`, concatenate the recovered batches in order, and
abort on the first failure (the thrown error propagates out of the loop).
`respond i` is the raw text returned by the external model call for chunk
`i`. -/
def runSegmentsAux (respond : Nat → List Char) : Nat → Nat → List Json → Except String (List Json)
  | 0, _, acc => Except.ok acc
  | k + 1, i, acc =>
    match recoverChunk (respond i) (some (i + 1)) with
    | Except.ok v => runSegmentsAux respond k (i + 1) (acc ++ toBatch v)
    | Except.error e => Except.error e

/-- `summarizePolicy` (lines 21-70 of `api/process-terms.js`) with the
external model calls abstracted by the oracle `respond` and the character
budget generalised from the constant `maxInputChars`: one call on the
whole document when it fits the budget, otherwise the sequential chunk
loop. -/
def summarizePolicy (respond : Nat → List Char) (doc : List Char) (B : Nat) :
    Except String (List Json) :=
  if doc.length ≤ B then
    match recoverChunk (respond 0) none with
    | Except.ok v => Except.ok (toBatch v)
    | Except.error e => Except.error e
  else
    runSegmentsAux respond (ceilDiv doc.length B) 0 []

/-- Number of external extraction calls issued while processing the first
`k` remaining segments starting at segment `i`: each loop iteration
reached issues exactly one call, and a failed recovery aborts the loop
after its call. -/
def callCountAux (respond : Nat → List Char) : Nat → Nat → Nat
  | 0, _ => 0
  | k + 1, i =>
    match recoverChunk (respond i) (some (i + 1)) with
    | Except.ok _ => 1 + callCountAux respond k (i + 1)
    | Except.error _ => 1

/-- Total number of external extraction calls issued by the pipeline: one
per segment processed before (and including) the first failure. -/
def callCount (respond : Nat → List Char) (doc : List Char) (B : Nat) : Nat :=
  callCountAux respond (segment doc B).length 0

/-- Modelled from the spec: the expected structured-output schema of one
concern, an object with exactly the fields `section`, `quote` and
`concern`, in that order, all strings (§4.2 of the spec; the code itself
performs no such validation, which is what claim C10 records). -/
def specConcernObj : Json → Bool
  | Json.obj [(k1, Json.str _), (k2, Json.str _), (k3, Json.str _)] =>
    k1 == "section" && k2 == "quote" && k3 == "concern"
  | _ => false

/-- Modelled from the spec: the expected structured-output schema of a
response, a JSON array of concern objects. -/
def specConcernBatch : Json → Bool
  | Json.arr l => l.all specConcernObj
  | _ => false

/-- Whether the second list starts with the first one. -/
def startsWithSeg : List Char → List Char → Bool
  | [], _ => true
  | _ :: _, [] => false
  | p :: ps, c :: cs => p == c && startsWithSeg ps cs

/-- Whether the first list occurs as a contiguous run inside the second. -/
def containsSeg (pat : List Char) : List Char → Bool
  | [] => startsWithSeg pat []
  | c :: cs => startsWithSeg pat (c :: cs) || containsSeg pat cs

mutual

/-- Whether a JSON value contains no numeric leaf.  Values matching the
expected concern schema are number-free, which the recovery round-trip
argument uses: the numeric lexeme is the only token whose parse can be
affected by what follows it. -/
def numFree : Json → Bool
  | Json.num _ => false
  | Json.arr l => numFreeList l
  | Json.obj ms => numFreePairs ms
  | _ => true

/-- `numFree` over a list of values. -/
def numFreeList : List Json → Bool
  | [] => true
  | v :: vs => numFree v && numFreeList vs

/-- `numFree` over object members. -/
def numFreePairs : List (String × Json) → Bool
  | [] => true
  | (_, v) :: ms => numFree v && numFreePairs ms

end

/-! ### Arithmetic facts about the ceiling division used by the chunk loop -/

theorem le_ceilDiv_mul (len B : Nat) (hB : 0 < B) : len ≤ ceilDiv len B * B := by
  unfold ceilDiv
  have h := Nat.div_add_mod (len + B - 1) B
  have h2 : (len + B - 1) % B < B := Nat.mod_lt _ hB
  rw [Nat.mul_comm]
  obtain ⟨m, hm⟩ : ∃ m, B * ((len + B - 1) / B) = m := ⟨_, rfl⟩
  rw [hm] at h ⊢
  omega

theorem ceilDiv_pos (len B : Nat) (hB : 0 < B) (hlen : 0 < len) : 0 < ceilDiv len B := by
  unfold ceilDiv
  have h : B ≤ len + B - 1 := by omega
  have := (Nat.one_le_div_iff hB).mpr h
  omega

theorem ceilDiv_pred_mul_lt (len B : Nat) (hB : 0 < B) (hlen : 0 < len) :
    (ceilDiv len B - 1) * B < len := by
  have hpos : 0 < ceilDiv len B := ceilDiv_pos len B hB hlen
  have hmul : ceilDiv len B * B = (ceilDiv len B - 1) * B + B := by
    conv_lhs => rw [show ceilDiv len B = (ceilDiv len B - 1) + 1 from by omega]
    rw [Nat.succ_mul]
  have hub : ceilDiv len B * B ≤ len + B - 1 := by
    unfold ceilDiv
    exact Nat.div_mul_le_self _ _
  obtain ⟨m1, hm1⟩ : ∃ m, (ceilDiv len B - 1) * B = m := ⟨_, rfl⟩
  rw [hm1] at hmul ⊢
  obtain ⟨m2, hm2⟩ : ∃ m, ceilDiv len B * B = m := ⟨_, rfl⟩
  rw [hm2] at hmul hub
  omega

theorem window_start_lt (len B k : Nat) (hB : 0 < B) (hlen : 0 < len)
    (hk : k + 1 ≤ ceilDiv len B) : k * B < len := by
  have h1 : k * B ≤ (ceilDiv len B - 1) * B := Nat.mul_le_mul_right B (by omega)
  exact lt_of_le_of_lt h1 (ceilDiv_pred_mul_lt len B hB hlen)

theorem window_end_le (len B i : Nat) (hB : 0 < B) (hlen : 0 < len)
    (hi : i + 1 < ceilDiv len B) : i * B + B ≤ len := by
  have h1 : (i + 1) * B ≤ (ceilDiv len B - 1) * B := Nat.mul_le_mul_right B (by omega)
  have h2 := ceilDiv_pred_mul_lt len B hB hlen
  rw [Nat.succ_mul] at h1
  obtain ⟨m, hm⟩ : ∃ m, i * B = m := ⟨_, rfl⟩
  rw [hm] at h1 ⊢
  obtain ⟨p, hp⟩ : ∃ p, (ceilDiv len B - 1) * B = p := ⟨_, rfl⟩
  rw [hp] at h1 h2
  omega

theorem ceilDiv_zero_of_len_zero (B : Nat) : ceilDiv 0 B = 0 := by
  unfold ceilDiv
  rcases Nat.eq_zero_or_pos B with h | h
  · rw [h]
  · exact Nat.div_eq_of_lt (by omega)

/-- Concatenating the first `k` windows of the chunk loop reconstructs the
first `min (k * B) len` characters of the document. -/
theorem segment_join_aux (doc : List Char) (B : Nat) (hB : 0 < B) :
    ∀ k, k ≤ ceilDiv doc.length B →
      ((List.range k).map
          (fun i => sliceList doc (i * B) (min (i * B + B) doc.length))).flatten
        = doc.take (min (k * B) doc.length) := by
  intro k
  induction k with
  | zero => intro _; simp [sliceList]
  | succ k ih =>
    intro hk
    have hlen0 : 0 < doc.length := by
      by_contra h
      have h0 : doc.length = 0 := by omega
      rw [h0, ceilDiv_zero_of_len_zero] at hk
      omega
    rw [List.range_succ, List.map_append, List.flatten_append, ih (by omega)]
    simp only [List.map_cons, List.map_nil, List.flatten_cons, List.flatten_nil,
      List.append_nil]
    have hkBlt : k * B < doc.length := window_start_lt doc.length B k hB hlen0 hk
    have hke : k * B ≤ min (k * B + B) doc.length :=
      le_min (Nat.le_add_right _ _) (le_of_lt hkBlt)
    rw [Nat.succ_mul, Nat.min_eq_left (le_of_lt hkBlt)]
    unfold sliceList
    rw [← List.take_add, Nat.add_sub_cancel' hke]

/-- CLAIM C1: for every document and positive budget the produced segments
are contiguous (each end offset equals the next start offset, hence no
gaps and no overlaps) and their texts concatenate back to the document. -/
theorem segment_contiguous_and_covers (doc : List Char) (B : Nat) (hB : 0 < B) :
    (∀ i (hi : i + 1 < (segment doc B).length),
      ((segment doc B).get ⟨i, Nat.lt_of_succ_lt hi⟩).endOffset
        = ((segment doc B).get ⟨i + 1, hi⟩).startOffset)
    ∧ ((segment doc B).map Segment.text).flatten = doc := by
  unfold segment
  by_cases hle : doc.length ≤ B
  · rw [if_pos hle]
    constructor
    · intro i hi
      simp at hi
    · simp
  · rw [if_neg hle]
    have hlen0 : 0 < doc.length := by omega
    constructor
    · intro i hi
      have hi' : i + 1 < ceilDiv doc.length B := by simpa using hi
      simp only [List.get_eq_getElem, List.getElem_map, List.getElem_range]
      have hend : i * B + B ≤ doc.length := window_end_le _ _ _ hB hlen0 hi'
      rw [Nat.min_eq_left hend, Nat.succ_mul]
    · rw [List.map_map]
      have h := segment_join_aux doc B hB (ceilDiv doc.length B) (le_refl _)
      have hcov : min (ceilDiv doc.length B * B) doc.length = doc.length :=
        Nat.min_eq_right (le_ceilDiv_mul _ _ hB)
      rw [hcov, List.take_length] at h
      exact h

/-- Witness for C1 at a concrete document and budget. -/
theorem segment_contiguous_and_covers_witness :
    ((segment ("hello world".data) 4).get ⟨0, by decide⟩).endOffset
      = ((segment ("hello world".data) 4).get ⟨1, by decide⟩).startOffset
    ∧ ((segment ("hello world".data) 4).map Segment.text).flatten = "hello world".data :=
  ⟨(segment_contiguous_and_covers "hello world".data 4 (by decide)).1 0 (by decide),
   (segment_contiguous_and_covers "hello world".data 4 (by decide)).2⟩

/-- CLAIM C2: when the document exceeds the budget, the chunk loop yields
exactly `ceil(len / B)` segments, segment `i` spans offsets
`[i * B, min((i + 1) * B, len))`, and every segment except the last has
text of length exactly `B`. -/
theorem segment_count_and_window_bounds (doc : List Char) (B : Nat) (hB : 0 < B)
    (hgt : B < doc.length) :
    (segment doc B).length = ceilDiv doc.length B
    ∧ (∀ i (hi : i < (segment doc B).length),
        ((segment doc B).get ⟨i, hi⟩).startOffset = i * B
        ∧ ((segment doc B).get ⟨i, hi⟩).endOffset = min ((i + 1) * B) doc.length)
    ∧ (∀ i (hi : i + 1 < (segment doc B).length),
        ((segment doc B).get ⟨i, Nat.lt_of_succ_lt hi⟩).text.length = B) := by
  have hne : ¬ doc.length ≤ B := by omega
  have hlen0 : 0 < doc.length := by omega
  unfold segment
  rw [if_neg hne]
  refine ⟨by simp, fun i hi => ?_, fun i hi => ?_⟩
  · simp only [List.get_eq_getElem, List.getElem_map, List.getElem_range]
    exact ⟨by trivial, by rw [Nat.succ_mul]⟩
  · have hi' : i + 1 < ceilDiv doc.length B := by simpa using hi
    simp only [List.get_eq_getElem, List.getElem_map, List.getElem_range]
    have hend : i * B + B ≤ doc.length := window_end_le _ _ _ hB hlen0 hi'
    unfold sliceList
    rw [Nat.min_eq_left hend, List.length_take, List.length_drop,
      Nat.add_sub_cancel_left]
    exact Nat.min_eq_left (by omega)

/-- Witness for C2 at a concrete document and budget: a 5-character
document with budget 2 yields 3 segments, the middle one spanning
`[2, 4)` with length exactly 2. -/
theorem segment_count_and_window_bounds_witness :
    (segment ("hello".data) 2).length = ceilDiv ("hello".data).length 2
    ∧ ((segment ("hello".data) 2).get ⟨1, by decide⟩).startOffset = 1 * 2
    ∧ ((segment ("hello".data) 2).get ⟨1, by decide⟩).text.length = 2 :=
  ⟨(segment_count_and_window_bounds "hello".data 2 (by decide) (by decide)).1,
   ((segment_count_and_window_bounds "hello".data 2 (by decide) (by decide)).2.1 1
      (by decide)).1,
   (segment_count_and_window_bounds "hello".data 2 (by decide) (by decide)).2.2 1
      (by decide)⟩

/-- CLAIM C3: when the document fits the budget the segmenter produces one
segment spanning the whole document, and the pipeline issues exactly one
extraction call, whatever the model responds. -/
theorem single_segment_single_call (doc : List Char) (B : Nat)
    (hle : doc.length ≤ B) :
    segment doc B = [⟨0, 0, doc.length, doc⟩]
    ∧ ∀ respond, callCount respond doc B = 1 := by
  have hseg : segment doc B = [⟨0, 0, doc.length, doc⟩] := by
    unfold segment
    rw [if_pos hle]
  refine ⟨hseg, fun respond => ?_⟩
  unfold callCount
  rw [hseg]
  cases h : recoverChunk (respond 0) (some 1) with
  | ok v => simp [callCountAux, h]
  | error e => simp [callCountAux, h]

/-- Witness for C3 at a concrete document, with the budget constant of the
source and a concrete responder. -/
theorem single_segment_single_call_witness :
    segment ("hi".data) maxInputChars = [⟨0, 0, ("hi".data).length, "hi".data⟩]
    ∧ ∀ respond, callCount respond ("hi".data) maxInputChars = 1 :=
  single_segment_single_call "hi".data maxInputChars (by decide)

/-! ### Facts about the bracket extraction of the recovery path -/

theorem firstIdx_spec (p : Char → Bool) (l : List Char) (i : Nat)
    (h : firstIdx p l = some i) :
    ∃ hlt : i < l.length, p (l.get ⟨i, hlt⟩) = true := by
  induction l generalizing i with
  | nil => simp [firstIdx] at h
  | cons c rest ih =>
    by_cases hc : p c = true
    · simp only [firstIdx, hc, if_true] at h
      injection h with h0
      subst h0
      exact ⟨Nat.succ_pos _, by simpa using hc⟩
    · simp only [firstIdx, hc, if_false] at h
      cases hrest : firstIdx p rest with
      | none => rw [hrest] at h; simp at h
      | some j =>
        rw [hrest] at h
        simp only [Option.map_some'] at h
        injection h with h1
        obtain ⟨hlt, hp⟩ := ih j hrest
        subst h1
        exact ⟨Nat.succ_lt_succ hlt, by simpa using hp⟩

theorem firstIdx_head (p : Char → Bool) (c : Char) (t : List Char)
    (hc : p c = true) : firstIdx p (c :: t) = some 0 := by
  simp [firstIdx, hc]

theorem firstIdx_none (p : Char → Bool) (l : List Char)
    (h : ∀ c ∈ l, p c = false) : firstIdx p l = none := by
  induction l with
  | nil => rfl
  | cons c rest ih =>
    have hc := h c (List.mem_cons_self c rest)
    simp [firstIdx, hc, ih (fun x hx => h x (List.mem_cons_of_mem _ hx))]

theorem firstIdx_append_none (p : Char → Bool) (l₁ l₂ : List Char)
    (h : firstIdx p l₁ = none) :
    firstIdx p (l₁ ++ l₂) = (firstIdx p l₂).map (· + l₁.length) := by
  induction l₁ with
  | nil =>
    cases hf : firstIdx p l₂ with
    | none => simp [hf]
    | some j => simp [hf]
  | cons c rest ih =>
    have hc : p c = false := by
      by_contra hcc
      have hct : p c = true := by revert hcc; cases p c <;> simp
      simp [firstIdx, hct] at h
    have hrest : firstIdx p rest = none := by
      simp only [firstIdx, hc, if_false] at h
      cases hr : firstIdx p rest with
      | none => rfl
      | some j => rw [hr] at h; simp at h
    have hstep : firstIdx p (c :: (rest ++ l₂)) = (firstIdx p (rest ++ l₂)).map (· + 1) := by
      simp [firstIdx, hc]
    rw [List.cons_append, hstep, ih hrest]
    cases hf : firstIdx p l₂ with
    | none => simp
    | some j => simp only [Option.map_some', Option.some.injEq, List.length_cons]; omega

/-- When a response is junk containing no opening bracket, followed by a
bracketed payload, followed by junk containing no closing bracket, the
regular-expression extraction returns exactly the payload. -/
theorem extractArray_eq_some_of_wrap (pre sub post : List Char)
    (hpre : ∀ c ∈ pre, (c == '[') = false)
    (hpost : ∀ c ∈ post, (c == ']') = false)
    (hh : sub.head? = some '[')
    (hl : sub.getLast? = some ']') :
    extractArray (pre ++ sub ++ post) = some sub := by
  obtain ⟨c, t, rfl⟩ : ∃ c t, sub = c :: t := by
    cases sub with
    | nil => simp at hh
    | cons c t => exact ⟨c, t, rfl⟩
  have hc : c = '[' := by simpa using hh
  subst hc
  have ht : t ≠ [] := by
    rintro rfl
    simp at hl
  have htlen : 0 < t.length := List.length_pos.mpr ht
  have h1 : firstIdx (fun c => c == '[') (pre ++ ('[' :: t) ++ post) = some pre.length := by
    rw [List.append_assoc, firstIdx_append_none _ _ _ (firstIdx_none _ _ hpre),
      List.cons_append, firstIdx_head _ _ _ (by simp)]
    simp
  have hrevh : (('[' :: t) : List Char).reverse.head? = some ']' := by
    rw [List.head?_reverse]
    exact hl
  obtain ⟨r0, rs, hr⟩ : ∃ r0 rs, (('[' :: t) : List Char).reverse = r0 :: rs := by
    cases hrv : (('[' :: t) : List Char).reverse with
    | nil => rw [hrv] at hrevh; simp at hrevh
    | cons r0 rs => exact ⟨r0, rs, rfl⟩
  have hr0 : r0 = ']' := by rw [hr] at hrevh; simpa using hrevh
  subst hr0
  have h2 : firstIdx (fun c => c == ']') ((pre ++ ('[' :: t) ++ post).reverse)
      = some post.length := by
    rw [List.reverse_append, List.reverse_append,
      firstIdx_append_none _ _ _
        (firstIdx_none _ _ (fun c hcm => hpost c (List.mem_reverse.mp hcm)))]
    rw [hr, List.cons_append, firstIdx_head _ _ _ (by simp)]
    simp
  have hL : (pre ++ ('[' :: t) ++ post).length = pre.length + (t.length + 1) + post.length := by
    simp
    omega
  have hcond : pre.length < (pre ++ ('[' :: t) ++ post).length - 1 - post.length := by
    rw [hL]; omega
  simp only [extractArray, h1, h2]
  rw [if_pos hcond]
  unfold sliceList
  rw [hL]
  rw [show pre.length + (t.length + 1) + post.length - 1 - post.length + 1 - pre.length
      = (('[' :: t) : List Char).length from by simp; omega]
  rw [List.append_assoc, List.drop_left, List.take_left]

/-- A response that itself starts with an opening bracket and ends with a
closing bracket is extracted unchanged. -/
theorem extractArray_self (sub : List Char) (hh : sub.head? = some '[')
    (hl : sub.getLast? = some ']') : extractArray sub = some sub := by
  have h := extractArray_eq_some_of_wrap [] sub [] (by simp) (by simp) hh hl
  simpa using h

/-- Head of an in-range slice. -/
theorem sliceList_head? (l : List Char) (s e : Nat) (hs : s < e)
    (hsl : s < l.length) :
    (sliceList l s e).head? = some (l.get ⟨s, hsl⟩) := by
  have hpos : 0 < (sliceList l s e).length := by
    unfold sliceList
    rw [List.length_take, List.length_drop]
    omega
  rw [List.head?_eq_getElem?, List.getElem?_eq_getElem hpos]
  unfold sliceList
  simp only [List.getElem_take, List.getElem_drop, List.get_eq_getElem]
  congr 1

/-- Last element of an in-range slice. -/
theorem sliceList_getLast? (l : List Char) (s e : Nat) (hs : s < e)
    (hel : e ≤ l.length) :
    (sliceList l s e).getLast? = some (l.get ⟨e - 1, by omega⟩) := by
  have hlen : (sliceList l s e).length = e - s := by
    unfold sliceList
    rw [List.length_take, List.length_drop]
    omega
  rw [List.getLast?_eq_getElem?]
  rw [hlen]
  rw [List.getElem?_eq_getElem (by omega : e - s - 1 < (sliceList l s e).length)]
  congr 1
  unfold sliceList
  simp only [List.getElem_take, List.getElem_drop, List.get_eq_getElem]
  congr 1
  omega

/-- The extracted substring always starts with an opening bracket and ends
with a closing bracket. -/
theorem extract_brackets (l sub : List Char) (h : extractArray l = some sub) :
    sub.head? = some '[' ∧ sub.getLast? = some ']' := by
  unfold extractArray at h
  split at h
  · rename_i a k ha hk
    split at h
    · rename_i hcond
      injection h with hsub
      obtain ⟨halt, hpa⟩ := firstIdx_spec _ _ _ ha
      obtain ⟨hklt, hpk⟩ := firstIdx_spec _ _ _ hk
      have hpa' : l.get ⟨a, halt⟩ = '[' := by simpa using hpa
      have hklt' : k < l.length := by simpa using hklt
      have hz : l.length - 1 - k < l.length := by omega
      have hpk' : l.get ⟨l.length - 1 - k, hz⟩ = ']' := by
        have h5 := hpk
        simp only [List.get_eq_getElem, List.getElem_reverse] at h5
        simp only [List.get_eq_getElem, beq_iff_eq] at h5 ⊢
        simpa using h5
      subst hsub
      constructor
      · rw [sliceList_head? l a (l.length - 1 - k + 1) (by omega) halt]
        rw [hpa']
      · rw [sliceList_getLast? l a (l.length - 1 - k + 1) (by omega) (by omega)]
        have hidx : (⟨l.length - 1 - k + 1 - 1, by omega⟩ : Fin l.length)
            = ⟨l.length - 1 - k, hz⟩ :=
          Fin.ext (show l.length - 1 - k + 1 - 1 = l.length - 1 - k from by omega)
        rw [hidx, hpk']
    · simp at h
  · simp at h

/-! ### Facts about the two textual repairs of `fixJSON` -/

theorem isSmartQuote_smartRep (c : Char) : isSmartQuote (smartRep c) = false := by
  unfold smartRep
  by_cases h1 : (c == '“' || c == '”') = true
  · rw [if_pos h1]
    rfl
  · rw [if_neg h1]
    by_cases h2 : (c == '‘' || c == '’') = true
    · rw [if_pos h2]
      rfl
    · rw [if_neg h2]
      have e1 : (c == '“' || c == '”') = false := by simpa using h1
      have e2 : (c == '‘' || c == '’') = false := by simpa using h2
      unfold isSmartQuote
      rw [e1, e2]
      rfl

theorem smartRep_eq_self (c : Char) (h : isSmartQuote c = false) : smartRep c = c := by
  unfold isSmartQuote at h
  have h1 : (c == '“' || c == '”') = false := by
    revert h
    cases (c == '“' || c == '”') <;> simp
  have h2 : (c == '‘' || c == '’') = false := by
    revert h
    cases (c == '‘' || c == '’') <;> cases (c == '“' || c == '”') <;> simp
  unfold smartRep
  rw [h1, h2]
  rfl

theorem smartRep_idem (c : Char) : smartRep (smartRep c) = smartRep c :=
  smartRep_eq_self _ (isSmartQuote_smartRep c)

theorem keepChar_smartRep (c : Char) : keepChar (smartRep c) = keepChar c := by
  unfold smartRep
  by_cases h1 : (c == '“' || c == '”') = true
  · rw [if_pos h1]
    rcases (by simpa using h1 : c = '“' ∨ c = '”') with rfl | rfl <;> rfl
  · rw [if_neg h1]
    by_cases h2 : (c == '‘' || c == '’') = true
    · rw [if_pos h2]
      rcases (by simpa using h2 : c = '‘' ∨ c = '’') with rfl | rfl <;> rfl
    · rw [if_neg h2]

/-- The quote normalisation leaves its own output unchanged. -/
theorem replaceSmartQuotes_cleaned (a : List Char) :
    replaceSmartQuotes (stripControl (replaceSmartQuotes a))
      = stripControl (replaceSmartQuotes a) := by
  unfold replaceSmartQuotes stripControl
  rw [List.filter_map]
  rw [List.map_map]
  rw [show (smartRep ∘ smartRep) = smartRep from funext smartRep_idem]

/-- The control-character removal leaves its own output unchanged. -/
theorem stripControl_idem (x : List Char) :
    stripControl (stripControl x) = stripControl x := by
  unfold stripControl
  rw [List.filter_filter]
  congr 1
  funext c
  rw [Bool.and_self]

/-- The cleaned string keeps the leading opening bracket. -/
theorem cleaned_head (a : List Char) (hh : a.head? = some '[') :
    (stripControl (replaceSmartQuotes a)).head? = some '[' := by
  cases a with
  | nil => simp at hh
  | cons c t0 =>
    have hc : c = '[' := by simpa using hh
    subst hc
    unfold replaceSmartQuotes stripControl
    rw [List.map_cons, show smartRep '[' = '[' from rfl,
      List.filter_cons_of_pos (by rfl)]
    rfl

/-- The cleaned string keeps the trailing closing bracket. -/
theorem cleaned_last (a : List Char) (hl : a.getLast? = some ']') :
    (stripControl (replaceSmartQuotes a)).getLast? = some ']' := by
  rw [← List.head?_reverse]
  unfold stripControl replaceSmartQuotes
  rw [← List.filter_reverse, ← List.map_reverse]
  have hrh : a.reverse.head? = some ']' := by
    rw [List.head?_reverse]
    exact hl
  cases har : a.reverse with
  | nil => rw [har] at hrh; simp at hrh
  | cons c u =>
    rw [har] at hrh
    have hc : c = ']' := by simpa using hrh
    subst hc
    rw [List.map_cons, show smartRep ']' = ']' from rfl,
      List.filter_cons_of_pos (by rfl)]
    rfl

/-- CLAIM C7: the repair chain of `fixJSON` is idempotent as a string
transformation: running it on its own output returns that output
unchanged (stated through `Option.bind`, so inputs on which the chain
fails are covered as well). -/
theorem repairChain_idempotent (l : List Char) :
    (repairChain l).bind repairChain = repairChain l := by
  cases hx : extractArray l with
  | none => simp [repairChain, hx]
  | some a =>
    obtain ⟨hh, hl⟩ := extract_brackets l a hx
    have hth : (stripControl (replaceSmartQuotes a)).head? = some '[' :=
      cleaned_head a hh
    have htl : (stripControl (replaceSmartQuotes a)).getLast? = some ']' :=
      cleaned_last a hl
    have h2 : extractArray (stripControl (replaceSmartQuotes a))
        = some (stripControl (replaceSmartQuotes a)) :=
      extractArray_self _ hth htl
    have h3 := replaceSmartQuotes_cleaned a
    have h4 := stripControl_idem (replaceSmartQuotes a)
    simp [repairChain, hx, h2, h3, h4]

/-! ### Whitespace and control-character facts used by the round-trip -/

theorem isWsChar_cases (c : Char) (h : isWsChar c = true) :
    c = ' ' ∨ c = '\t' ∨ c = '\n' ∨ c = '\r' := by
  simp [isWsChar] at h
  tauto

theorem ws_not_lbrack (c : Char) (h : isWsChar c = true) : (c == '[') = false := by
  rcases isWsChar_cases c h with rfl | rfl | rfl | rfl <;> rfl

theorem ws_not_rbrack (c : Char) (h : isWsChar c = true) : (c == ']') = false := by
  rcases isWsChar_cases c h with rfl | rfl | rfl | rfl <;> rfl

theorem skipWs_decomp (r y : List Char) (h : skipWs r = y) :
    ∃ w, r = w ++ y ∧ ∀ c ∈ w, isWsChar c = true := by
  induction r generalizing y with
  | nil =>
    refine ⟨[], ?_, by simp⟩
    simpa [skipWs] using h.symm
  | cons c t ih =>
    by_cases hc : isWsChar c = true
    · simp only [skipWs, hc, if_true] at h
      obtain ⟨w, rfl, hw⟩ := ih y h
      refine ⟨c :: w, rfl, ?_⟩
      intro x hx
      rcases List.mem_cons.mp hx with rfl | hx
      · exact hc
      · exact hw x hx
    · simp only [skipWs, hc, if_false] at h
      exact ⟨[], by simp [← h], by simp⟩

theorem skipWs_append_ws (w y : List Char) (hw : ∀ c ∈ w, isWsChar c = true) :
    skipWs (w ++ y) = skipWs y := by
  induction w with
  | nil => rfl
  | cons c t ih =>
    have hc := hw c (List.mem_cons_self c t)
    simp only [List.cons_append, skipWs, hc, if_true]
    exact ih (fun x hx => hw x (List.mem_cons_of_mem _ hx))

theorem skipWs_cons_of_neg (c : Char) (t : List Char) (h : isWsChar c = false) :
    skipWs (c :: t) = c :: t := by
  simp [skipWs, h]

theorem skipWs_nil_all_ws (x : List Char) (h : skipWs x = []) :
    ∀ c ∈ x, isWsChar c = true := by
  induction x with
  | nil => simp
  | cons c t ih =>
    by_cases hc : isWsChar c = true
    · simp only [skipWs, hc, if_true] at h
      intro x hx
      rcases List.mem_cons.mp hx with rfl | hx
      · exact hc
      · exact ih h x hx
    · simp only [skipWs, hc, if_false] at h
      simp at h

theorem strip_append (a b : List Char) :
    stripControl (a ++ b) = stripControl a ++ stripControl b := by
  simp [stripControl, List.filter_append]

theorem strip_cons_kept (c : Char) (t : List Char) (h : keepChar c = true) :
    stripControl (c :: t) = c :: stripControl t := by
  unfold stripControl
  rw [List.filter_cons_of_pos h]

theorem strip_all_kept (x : List Char) (h : ∀ c ∈ x, keepChar c = true) :
    stripControl x = x :=
  List.filter_eq_self.mpr h

theorem strip_ws_all_ws (w : List Char) (hw : ∀ c ∈ w, isWsChar c = true) :
    ∀ c ∈ stripControl w, isWsChar c = true :=
  fun c hc => hw c (List.mem_of_mem_filter hc)

theorem getLast?_append_right (l₁ l₂ : List Char) (x : Char)
    (h : l₂.getLast? = some x) : (l₁ ++ l₂).getLast? = some x := by
  simp [List.getLast?_append, h]

theorem escMap_kept (e ch : Char) (h : escMap e = some ch) : keepChar e = true := by
  unfold escMap at h
  split at h <;> first | rfl | exact absurd h (by simp)

theorem hexDigitVal_kept (c : Char) (n : Nat) (h : hexDigitVal c = some n) :
    keepChar c = true := by
  simp only [hexDigitVal] at h
  have hkeep : ¬ (c.toNat < 32) → keepChar c = true := by
    intro hx
    simp [keepChar, hx]
  split_ifs at h with h1 h2 h3
  · exact hkeep (by omega)
  · exact hkeep (by omega)
  · exact hkeep (by omega)

/-! ### Consumed-prefix and replay facts for the string-body scanner -/

theorem parseStringBody_spec :
    ∀ (f : Nat) (l s r : List Char), parseStringBody f l = some (s, r) →
      ∃ c, l = c ++ r ∧ (∀ ch ∈ c, keepChar ch = true)
        ∧ ∀ (r₀ : List Char) (g : Nat), c.length ≤ g →
            parseStringBody g (c ++ r₀) = some (s, r₀) := by
  intro f
  induction f with
  | zero => intro l s r h; simp [parseStringBody] at h
  | succ f ih =>
    intro l s r h
    rw [parseStringBody.eq_def] at h
    split at h
    · rename_i heqf
      exact absurd heqf (by omega)
    · exact absurd h (by simp)
    · rename_i fuel c rest heqf
      obtain rfl : fuel = f := by omega
      split at h
      · -- closing quote
        rename_i hq
        have hc : c = '"' := by simpa using hq
        subst hc
        injection h with hpair
        injection hpair with hs hr
        subst hs
        subst hr
        refine ⟨['"'], rfl, by decide, ?_⟩
        intro r₀ g hg
        obtain ⟨g', rfl⟩ : ∃ g', g = g' + 1 := ⟨g - 1, by simp at hg; omega⟩
        rfl
      · rename_i hq
        split at h
        · -- backslash escape
          rename_i hbs
          have hc : c = '\\' := by simpa using hbs
          subst hc
          split at h
          · exact absurd h (by simp)
          · rename_i e rest2
            split at h
            · -- unicode escape
              rename_i hu
              have he : e = 'u' := by simpa using hu
              subst he
              split at h
              · rename_i h1 h2 h3 h4 rest3
                split at h
                · rename_i a b c2 d hh1 hh2 hh3 hh4
                  split at h
                  · rename_i s' r' hsb
                    injection h with hpair
                    injection hpair with hs hr
                    subst hs
                    subst hr
                    obtain ⟨cb, rfl, hkept, hreplay⟩ := ih _ _ _ hsb
                    refine ⟨'\\' :: 'u' :: h1 :: h2 :: h3 :: h4 :: cb, rfl, ?_, ?_⟩
                    · intro x hx
                      rcases List.mem_cons.mp hx with rfl | hx
                      · rfl
                      rcases List.mem_cons.mp hx with rfl | hx
                      · rfl
                      rcases List.mem_cons.mp hx with rfl | hx
                      · exact hexDigitVal_kept _ _ hh1
                      rcases List.mem_cons.mp hx with rfl | hx
                      · exact hexDigitVal_kept _ _ hh2
                      rcases List.mem_cons.mp hx with rfl | hx
                      · exact hexDigitVal_kept _ _ hh3
                      rcases List.mem_cons.mp hx with rfl | hx
                      · exact hexDigitVal_kept _ _ hh4
                      · exact hkept x hx
                    · intro r₀ g hg
                      simp only [List.length_cons] at hg
                      obtain ⟨g', rfl⟩ : ∃ g', g = g' + 1 := ⟨g - 1, by omega⟩
                      simp only [List.cons_append]
                      rw [parseStringBody.eq_def]
                      simp [hh1, hh2, hh3, hh4, hreplay r₀ g' (by omega)]
                  · exact absurd h (by simp)
                · exact absurd h (by simp)
              · exact absurd h (by simp)
            · -- two-character escape
              rename_i hu
              split at h
              · rename_i ch hesc
                split at h
                · rename_i s' r' hsb
                  injection h with hpair
                  injection hpair with hs hr
                  subst hs
                  subst hr
                  obtain ⟨cb, rfl, hkept, hreplay⟩ := ih _ _ _ hsb
                  refine ⟨'\\' :: e :: cb, rfl, ?_, ?_⟩
                  · intro x hx
                    rcases List.mem_cons.mp hx with rfl | hx
                    · rfl
                    rcases List.mem_cons.mp hx with rfl | hx
                    · exact escMap_kept _ _ hesc
                    · exact hkept x hx
                  · intro r₀ g hg
                    simp only [List.length_cons] at hg
                    obtain ⟨g', rfl⟩ : ∃ g', g = g' + 1 := ⟨g - 1, by omega⟩
                    simp only [List.cons_append]
                    rw [parseStringBody.eq_def]
                    simp [hu, hesc, hreplay r₀ g' (by omega)]
                · exact absurd h (by simp)
              · exact absurd h (by simp)
        · rename_i hbs
          split at h
          · -- raw control character: rejected
            exact absurd h (by simp)
          · -- ordinary character
            rename_i hctl
            split at h
            · rename_i s' r' hsb
              injection h with hpair
              injection hpair with hs hr
              subst hs
              subst hr
              obtain ⟨cb, rfl, hkept, hreplay⟩ := ih _ _ _ hsb
              refine ⟨c :: cb, rfl, ?_, ?_⟩
              · intro x hx
                rcases List.mem_cons.mp hx with rfl | hx
                · simp [keepChar, hctl]
                · exact hkept x hx
              · intro r₀ g hg
                simp only [List.length_cons] at hg
                obtain ⟨g', rfl⟩ : ∃ g', g = g' + 1 := ⟨g - 1, by omega⟩
                simp only [List.cons_append]
                rw [parseStringBody.eq_def]
                simp [hq, hbs, hctl, hreplay r₀ g' (by omega)]
            · exact absurd h (by simp)

/-! ### One-step unfolding equations for the value parser -/

theorem parseValue_succ_null (g : Nat) (rest : List Char) :
    parseValue (g + 1) ('n' :: 'u' :: 'l' :: 'l' :: rest) = some (Json.null, rest) := rfl

theorem parseValue_succ_true (g : Nat) (rest : List Char) :
    parseValue (g + 1) ('t' :: 'r' :: 'u' :: 'e' :: rest) = some (Json.bool true, rest) := rfl

theorem parseValue_succ_false (g : Nat) (rest : List Char) :
    parseValue (g + 1) ('f' :: 'a' :: 'l' :: 's' :: 'e' :: rest)
      = some (Json.bool false, rest) := rfl

theorem parseValue_succ_quote (g : Nat) (rest : List Char) :
    parseValue (g + 1) ('"' :: rest)
      = (match parseStringBody g rest with
        | some (s, r) => some (Json.str (String.mk s), r)
        | none => none) := rfl

theorem parseValue_succ_lbrack (g : Nat) (rest : List Char) :
    parseValue (g + 1) ('[' :: rest)
      = (match skipWs rest with
        | ']' :: r2 => some (Json.arr [], r2)
        | r1 =>
          match parseElements g r1 with
          | some (vs, r2) => some (Json.arr vs, r2)
          | none => none) := rfl

theorem parseValue_succ_lbrace (g : Nat) (rest : List Char) :
    parseValue (g + 1) (lbrace :: rest)
      = (match skipWs rest with
        | [] => none
        | d :: r2 =>
          if d == rbrace then some (Json.obj [], r2)
          else
            match parseMembers g (d :: r2) with
            | some (ms, r3) => some (Json.obj ms, r3)
            | none => none) := by
  rw [parseValue.eq_def]
  split
  · omega
  · rename_i heq
    exact absurd heq (List.cons_ne_nil _ _)
  · rename_i heq
    injection heq with h1 h2
    exact absurd h1 (by decide)
  · rename_i heq
    injection heq with h1 h2
    exact absurd h1 (by decide)
  · rename_i heq
    injection heq with h1 h2
    exact absurd h1 (by decide)
  · rename_i heq
    injection heq with h1 h2
    exact absurd h1 (by decide)
  · rename_i heq
    injection heq with h1 h2
    exact absurd h1 (by decide)
  · rename_i fl c r s1 s2 s3 s4 s5 heqf heql
    injection heql with h1 h2
    subst h1
    subst h2
    obtain rfl : fl = g := by omega
    rfl

theorem parseElements_succ (g : Nat) (l : List Char) :
    parseElements (g + 1) l
      = (match parseValue g l with
        | some (v, r) =>
          match skipWs r with
          | ']' :: r2 => some ([v], r2)
          | ',' :: r2 =>
            match parseElements g (skipWs r2) with
            | some (vs, r3) => some (v :: vs, r3)
            | none => none
          | _ => none
        | none => none) := rfl

theorem parseMembers_succ_quote (g : Nat) (rest : List Char) :
    parseMembers (g + 1) ('"' :: rest)
      = (match parseStringBody g rest with
        | some (k, r1) =>
          match skipWs r1 with
          | ':' :: r2 =>
            match parseValue g (skipWs r2) with
            | some (v, r3) =>
              match skipWs r3 with
              | [] => none
              | c :: r5 =>
                if c == rbrace then some ([(String.mk k, v)], r5)
                else if c == ',' then
                  match parseMembers g (skipWs r5) with
                  | some (ms, r6) => some ((String.mk k, v) :: ms, r6)
                  | none => none
                else none
            | none => none
          | _ => none
        | none => none) := rfl

/-! ### Consumed-prefix and replay facts for the value parser

For number-free results, a successful parse consumes a prefix of its
input; replacing everything after that prefix by an arbitrary suffix and
removing the control characters of the prefix (which, the parse having
succeeded, occur only as insignificant whitespace) reparses, at any
sufficient fuel, to the same value with exactly that suffix left over. -/

theorem parseReplay (f : Nat) :
    (∀ l v r, parseValue f l = some (v, r) → numFree v = true →
      ∃ c, l = c ++ r
        ∧ (∃ ch t, c = ch :: t ∧ keepChar ch = true ∧ isWsChar ch = false
            ∧ (ch == ']') = false)
        ∧ (∀ xs, v = Json.arr xs → c.head? = some '[' ∧ c.getLast? = some ']')
        ∧ (∀ r₀ g, 2 * (stripControl c).length ≤ g →
            parseValue g (stripControl c ++ r₀) = some (v, r₀)))
    ∧ (∀ l vs r, parseElements f l = some (vs, r) → numFreeList vs = true →
      ∃ c, l = c ++ r
        ∧ c.getLast? = some ']'
        ∧ (∃ ch t, c = ch :: t ∧ keepChar ch = true ∧ isWsChar ch = false
            ∧ (ch == ']') = false)
        ∧ (∀ r₀ g, 2 * (stripControl c).length ≤ g →
            parseElements g (stripControl c ++ r₀) = some (vs, r₀)))
    ∧ (∀ l ms r, parseMembers f l = some (ms, r) → numFreePairs ms = true →
      ∃ c, l = c ++ r
        ∧ (∃ t, c = '"' :: t)
        ∧ (∀ r₀ g, 2 * (stripControl c).length ≤ g →
            parseMembers g (stripControl c ++ r₀) = some (ms, r₀))) := by
  induction f with
  | zero =>
    refine ⟨?_, ?_, ?_⟩
    · intro l v r h
      simp [parseValue] at h
    · intro l vs r h
      simp [parseElements] at h
    · intro l ms r h
      simp [parseMembers] at h
  | succ f ih =>
    obtain ⟨ihV, ihE, ihM⟩ := ih
    refine ⟨?_, ?_, ?_⟩
    · -- parseValue
      intro l v r h hnum
      rw [parseValue.eq_def] at h
      split at h
      · rename_i heqf
        exact absurd heqf (by omega)
      · exact absurd h (by simp)
      · -- null
        rename_i rest heqf
        injection h with hpair
        injection hpair with hv hr
        subst hv
        subst hr
        refine ⟨['n', 'u', 'l', 'l'], rfl, ⟨'n', _, rfl, rfl, rfl, rfl⟩, ?_, ?_⟩
        · intro xs hxs
          exact absurd hxs (by simp)
        · intro r₀ g hg
          obtain ⟨g', rfl⟩ : ∃ g', g = g' + 1 := ⟨g - 1, by
            rw [show stripControl ['n', 'u', 'l', 'l'] = ['n', 'u', 'l', 'l'] from rfl] at hg
            simp at hg
            omega⟩
          rfl
      · -- true
        rename_i rest heqf
        injection h with hpair
        injection hpair with hv hr
        subst hv
        subst hr
        refine ⟨['t', 'r', 'u', 'e'], rfl, ⟨'t', _, rfl, rfl, rfl, rfl⟩, ?_, ?_⟩
        · intro xs hxs
          exact absurd hxs (by simp)
        · intro r₀ g hg
          obtain ⟨g', rfl⟩ : ∃ g', g = g' + 1 := ⟨g - 1, by
            rw [show stripControl ['t', 'r', 'u', 'e'] = ['t', 'r', 'u', 'e'] from rfl] at hg
            simp at hg
            omega⟩
          rfl
      · -- false
        rename_i rest heqf
        injection h with hpair
        injection hpair with hv hr
        subst hv
        subst hr
        refine ⟨['f', 'a', 'l', 's', 'e'], rfl, ⟨'f', _, rfl, rfl, rfl, rfl⟩, ?_, ?_⟩
        · intro xs hxs
          exact absurd hxs (by simp)
        · intro r₀ g hg
          obtain ⟨g', rfl⟩ : ∃ g', g = g' + 1 := ⟨g - 1, by
            rw [show stripControl ['f', 'a', 'l', 's', 'e'] = ['f', 'a', 'l', 's', 'e'] from rfl] at hg
            simp at hg
            omega⟩
          rfl
      · -- string
        rename_i fuel rest heqf
        obtain rfl : fuel = f := by omega
        split at h
        · rename_i s' r' hsb
          injection h with hpair
          injection hpair with hv hr
          subst hv
          subst hr
          obtain ⟨cb, rfl, hkept, hreplay⟩ := parseStringBody_spec _ _ _ _ hsb
          refine ⟨'"' :: cb, rfl, ⟨'"', _, rfl, rfl, rfl, rfl⟩, ?_, ?_⟩
          · intro xs hxs
            exact absurd hxs (by simp)
          · intro r₀ g hg
            have hsc : stripControl ('"' :: cb) = '"' :: cb := by
              rw [strip_cons_kept '"' _ rfl, strip_all_kept _ hkept]
            rw [hsc] at hg ⊢
            simp only [List.length_cons] at hg
            obtain ⟨g', rfl⟩ : ∃ g', g = g' + 1 := ⟨g - 1, by omega⟩
            simp only [List.cons_append]
            rw [parseValue_succ_quote, hreplay r₀ g' (by omega)]
        · exact absurd h (by simp)
      · -- array
        rename_i fuel rest heqf
        obtain rfl : fuel = f := by omega
        split at h
        · -- empty array
          rename_i r2 heqw
          injection h with hpair
          injection hpair with hv hr
          subst hv
          subst hr
          obtain ⟨w, rfl, hw⟩ := skipWs_decomp rest _ heqw
          refine ⟨'[' :: (w ++ [']']), by simp, ⟨'[', _, rfl, rfl, rfl, rfl⟩, ?_, ?_⟩
          · intro xs hxs
            refine ⟨rfl, ?_⟩
            rw [show ('[' :: (w ++ [']']) : List Char) = ('[' :: w) ++ [']'] from by simp]
            exact List.getLast?_concat _
          · intro r₀ g hg
            have hsc : stripControl ('[' :: (w ++ [']']))
                = '[' :: (stripControl w ++ [']']) := by
              rw [strip_cons_kept '[' _ rfl, strip_append]
              rfl
            rw [hsc] at hg ⊢
            simp only [List.length_cons, List.length_append] at hg
            obtain ⟨g', rfl⟩ : ∃ g', g = g' + 1 := ⟨g - 1, by omega⟩
            have hskip : skipWs (stripControl w ++ (']' :: r₀)) = ']' :: r₀ := by
              rw [skipWs_append_ws _ _ (strip_ws_all_ws w hw)]
              exact skipWs_cons_of_neg _ _ rfl
            simp only [List.cons_append, List.append_assoc, List.singleton_append, List.nil_append]
            rw [parseValue_succ_lbrack, hskip]
            rfl
        · -- non-empty array
          rename_i r1 hne
          split at h
          · rename_i vs' r2 hpe
            injection h with hpair
            injection hpair with hv hr
            subst hv
            subst hr
            have hnums : numFreeList vs' = true := by simpa [numFree] using hnum
            obtain ⟨cE, hcE, hlast, ⟨chE, tE, hchE, hkE, hwE, hneqE⟩, replayE⟩ :=
              ihE _ _ _ hpe hnums
            obtain ⟨w, hwrest, hw⟩ := skipWs_decomp rest _ rfl
            rw [hcE] at hwrest
            refine ⟨'[' :: (w ++ cE), by rw [hwrest]; simp, ⟨'[', _, rfl, rfl, rfl, rfl⟩, ?_, ?_⟩
            · intro xs hxs
              refine ⟨rfl, ?_⟩
              rw [show ('[' :: (w ++ cE) : List Char) = ('[' :: w) ++ cE from by simp]
              exact getLast?_append_right _ _ _ hlast
            · intro r₀ g hg
              have hscE : stripControl cE = chE :: stripControl tE := by
                rw [hchE]
                exact strip_cons_kept _ _ hkE
              have hsc : stripControl ('[' :: (w ++ cE))
                  = '[' :: (stripControl w ++ stripControl cE) := by
                rw [strip_cons_kept '[' _ rfl, strip_append]
              rw [hsc] at hg ⊢
              simp only [List.length_cons, List.length_append] at hg
              obtain ⟨g', rfl⟩ : ∃ g', g = g' + 1 := ⟨g - 1, by omega⟩
              have hskip : skipWs (stripControl w ++ (stripControl cE ++ r₀))
                  = chE :: (stripControl tE ++ r₀) := by
                rw [skipWs_append_ws _ _ (strip_ws_all_ws w hw), hscE]
                exact skipWs_cons_of_neg _ _ hwE
              simp only [List.cons_append, List.append_assoc, List.singleton_append, List.nil_append]
              rw [parseValue_succ_lbrack, hskip]
              have hre := replayE r₀ g' (by omega)
              rw [hscE, List.cons_append] at hre
              split
              · rename_i r2' heq2
                injection heq2 with hch2
                subst hch2
                simp at hneqE
              · rw [hre]
          · exact absurd h (by simp)
      · -- catch-all characters: object, number, or failure
        rename_i fuel c rest x1 x2 x3 x4 x5 heqf
        obtain rfl : fuel = f := by omega
        split at h
        · -- object
          rename_i hlb
          have hc : c = lbrace := by simpa using hlb
          subst hc
          split at h
          · exact absurd h (by simp)
          · rename_i d r2 heqw
            split at h
            · -- empty object
              rename_i hrb
              have hd : d = rbrace := by simpa using hrb
              subst hd
              injection h with hpair
              injection hpair with hv hr
              subst hv
              subst hr
              obtain ⟨w, rfl, hw⟩ := skipWs_decomp rest _ heqw
              refine ⟨lbrace :: (w ++ [rbrace]), by simp,
                ⟨lbrace, _, rfl, by decide, by decide, by decide⟩, ?_, ?_⟩
              · intro xs hxs
                exact absurd hxs (by simp)
              · intro r₀ g hg
                have hsc : stripControl (lbrace :: (w ++ [rbrace]))
                    = lbrace :: (stripControl w ++ [rbrace]) := by
                  rw [strip_cons_kept _ _ (by decide), strip_append]
                  rfl
                rw [hsc] at hg ⊢
                simp only [List.length_cons, List.length_append] at hg
                obtain ⟨g', rfl⟩ : ∃ g', g = g' + 1 := ⟨g - 1, by omega⟩
                have hskip : skipWs (stripControl w ++ (rbrace :: r₀)) = rbrace :: r₀ := by
                  rw [skipWs_append_ws _ _ (strip_ws_all_ws w hw)]
                  exact skipWs_cons_of_neg _ _ (by decide)
                simp only [List.cons_append, List.append_assoc, List.singleton_append, List.nil_append]
                rw [parseValue_succ_lbrace, hskip]
                simp
            · -- members
              rename_i hrb
              split at h
              · rename_i ms' r3 hpm
                injection h with hpair
                injection hpair with hv hr
                subst hv
                subst hr
                have hnums : numFreePairs ms' = true := by simpa [numFree] using hnum
                obtain ⟨cM, hcM, ⟨tM, hcM2⟩, replayM⟩ := ihM _ _ _ hpm hnums
                obtain ⟨w, hwrest, hw⟩ := skipWs_decomp rest _ heqw
                rw [hcM] at hwrest
                refine ⟨lbrace :: (w ++ cM), by rw [hwrest]; simp,
                  ⟨lbrace, _, rfl, by decide, by decide, by decide⟩, ?_, ?_⟩
                · intro xs hxs
                  exact absurd hxs (by simp)
                · intro r₀ g hg
                  have hscM : stripControl cM = '"' :: stripControl tM := by
                    rw [hcM2]
                    exact strip_cons_kept _ _ rfl
                  have hsc : stripControl (lbrace :: (w ++ cM))
                      = lbrace :: (stripControl w ++ stripControl cM) := by
                    rw [strip_cons_kept _ _ (by decide), strip_append]
                  rw [hsc] at hg ⊢
                  simp only [List.length_cons, List.length_append] at hg
                  obtain ⟨g', rfl⟩ : ∃ g', g = g' + 1 := ⟨g - 1, by omega⟩
                  have hskip : skipWs (stripControl w ++ (stripControl cM ++ r₀))
                      = '"' :: (stripControl tM ++ r₀) := by
                    rw [skipWs_append_ws _ _ (strip_ws_all_ws w hw), hscM]
                    exact skipWs_cons_of_neg _ _ rfl
                  simp only [List.cons_append, List.append_assoc, List.singleton_append, List.nil_append]
                  rw [parseValue_succ_lbrace, hskip]
                  have hrm := replayM r₀ g' (by omega)
                  rw [hscM, List.cons_append] at hrm
                  have hfalse : (((Char.ofNat 34) == rbrace)) = false := by decide
                  simp [hfalse, hrm]
              · exact absurd h (by simp)
        · -- number or failure
          rename_i hlb
          split at h
          · rename_i hnb
            split at h
            · rename_i lex rn hnl
              injection h with hpair
              injection hpair with hv hr
              subst hv
              exact absurd hnum (by simp [numFree])
            · exact absurd h (by simp)
          · exact absurd h (by simp)
    · -- parseElements
      intro l vs r h hnums
      rw [parseElements_succ] at h
      split at h
      · rename_i v' rv hpv
        split at h
        · -- closing bracket
          rename_i r2 heqw
          injection h with hpair
          injection hpair with hv hr
          subst hv
          subst hr
          have hnum : numFree v' = true := by
            simp [numFreeList] at hnums
            exact hnums
          obtain ⟨cv, rfl, ⟨chv, tv, hchv, hkv, hwv, hnv⟩, _, replayV⟩ := ihV _ _ _ hpv hnum
          obtain ⟨w, rfl, hw⟩ := skipWs_decomp rv _ heqw
          refine ⟨cv ++ (w ++ [']']), by simp, ?_, ?_, ?_⟩
          · rw [show cv ++ (w ++ [']']) = (cv ++ w) ++ [']'] from by simp]
            exact List.getLast?_concat _
          · exact ⟨chv, tv ++ (w ++ [']']), by rw [hchv]; simp, hkv, hwv, hnv⟩
          · intro r₀ g hg
            have hsc : stripControl (cv ++ (w ++ [']']))
                = stripControl cv ++ (stripControl w ++ [']']) := by
              rw [strip_append, strip_append]
              rfl
            rw [hsc] at hg ⊢
            have hscv : stripControl cv = chv :: stripControl tv := by
              rw [hchv]
              exact strip_cons_kept _ _ hkv
            rw [hscv] at hg
            simp only [List.length_cons, List.length_append] at hg
            obtain ⟨g', rfl⟩ : ∃ g', g = g' + 1 := ⟨g - 1, by omega⟩
            have e1 : (stripControl cv ++ (stripControl w ++ [']'])) ++ r₀
                = stripControl cv ++ (stripControl w ++ (']' :: r₀)) := by
              simp
            rw [parseElements_succ, e1, replayV _ g' (by rw [hscv]; simp only [List.length_cons]; omega)]
            have hskip : skipWs (stripControl w ++ (']' :: r₀)) = ']' :: r₀ := by
              rw [skipWs_append_ws _ _ (strip_ws_all_ws w hw)]
              exact skipWs_cons_of_neg _ _ rfl
            simp [hskip]
        · -- comma, further elements
          rename_i r2 heqw
          split at h
          · rename_i vs' r3 hpe
            injection h with hpair
            injection hpair with hv hr
            subst hv
            subst hr
            simp only [numFreeList, Bool.and_eq_true] at hnums
            obtain ⟨hnum1, hnum2⟩ := hnums
            obtain ⟨cv, rfl, ⟨chv, tv, hchv, hkv, hwv, hnv⟩, _, replayV⟩ := ihV _ _ _ hpv hnum1
            obtain ⟨cE2, hcE2, hlast2, ⟨chE2, tE2, hchE2, hkE2, hwE2, hnE2⟩, replayE2⟩ :=
              ihE _ _ _ hpe hnum2
            obtain ⟨w, rfl, hw⟩ := skipWs_decomp rv _ heqw
            obtain ⟨w2, hw2eq, hw2⟩ := skipWs_decomp r2 _ rfl
            rw [hcE2] at hw2eq
            refine ⟨cv ++ (w ++ (',' :: (w2 ++ cE2))), by rw [hw2eq]; simp, ?_, ?_, ?_⟩
            · rw [show cv ++ (w ++ (',' :: (w2 ++ cE2))) = (cv ++ w ++ [','] ++ w2) ++ cE2 from by simp]
              exact getLast?_append_right _ _ _ hlast2
            · exact ⟨chv, tv ++ (w ++ (',' :: (w2 ++ cE2))), by rw [hchv]; simp, hkv, hwv, hnv⟩
            · intro r₀ g hg
              have hscv : stripControl cv = chv :: stripControl tv := by
                rw [hchv]
                exact strip_cons_kept _ _ hkv
              have hscE2 : stripControl cE2 = chE2 :: stripControl tE2 := by
                rw [hchE2]
                exact strip_cons_kept _ _ hkE2
              have hsc : stripControl (cv ++ (w ++ (',' :: (w2 ++ cE2))))
                  = stripControl cv ++ (stripControl w ++ (',' :: (stripControl w2 ++ stripControl cE2))) := by
                rw [strip_append, strip_append, strip_cons_kept ',' _ rfl, strip_append]
              rw [hsc] at hg ⊢
              rw [hscv, hscE2] at hg
              simp only [List.length_cons, List.length_append] at hg
              obtain ⟨g', rfl⟩ : ∃ g', g = g' + 1 := ⟨g - 1, by omega⟩
              have e1 : (stripControl cv ++ (stripControl w ++ (',' :: (stripControl w2 ++ stripControl cE2)))) ++ r₀
                  = stripControl cv ++ (stripControl w ++ (',' :: (stripControl w2 ++ (stripControl cE2 ++ r₀)))) := by
                simp
              rw [parseElements_succ, e1,
                replayV _ g' (by rw [hscv]; simp only [List.length_cons]; omega)]
              have hskip : skipWs (stripControl w ++ (',' :: (stripControl w2 ++ (stripControl cE2 ++ r₀))))
                  = ',' :: (stripControl w2 ++ (stripControl cE2 ++ r₀)) := by
                rw [skipWs_append_ws _ _ (strip_ws_all_ws w hw)]
                exact skipWs_cons_of_neg _ _ rfl
              have hskip2 : skipWs (stripControl w2 ++ (stripControl cE2 ++ r₀))
                  = stripControl cE2 ++ r₀ := by
                rw [skipWs_append_ws _ _ (strip_ws_all_ws w2 hw2), hscE2, List.cons_append]
                exact skipWs_cons_of_neg _ _ hwE2
              have hre := replayE2 r₀ g' (by rw [hscE2]; simp only [List.length_cons]; omega)
              simp [hskip, hskip2, hre]
          · exact absurd h (by simp)
        · exact absurd h (by simp)
      · exact absurd h (by simp)
    · -- parseMembers
      intro l ms r h hnums
      rw [parseMembers.eq_def] at h
      split at h
      · rename_i heqf
        exact absurd heqf (by omega)
      · rename_i fuel rest heqf
        obtain rfl : fuel = f := by omega
        split at h
        · rename_i k r1 hsb
          split at h
          · rename_i r2 heqw1
            split at h
            · rename_i v' r3 hpv
              split at h
              · exact absurd h (by simp)
              · rename_i d r5 heqw3
                split at h
                · -- closing brace
                  rename_i hrb
                  have hd : d = rbrace := by simpa using hrb
                  subst hd
                  injection h with hpair
                  injection hpair with hm hr
                  subst hm
                  subst hr
                  have hnum : numFree v' = true := by
                    simp [numFreePairs] at hnums
                    exact hnums
                  obtain ⟨ck, rfl, hkck, replayK⟩ := parseStringBody_spec _ _ _ _ hsb
                  obtain ⟨cv, hcv, ⟨chv, tv, hchv, hkv, hwv, hnv⟩, _, replayV⟩ := ihV _ _ _ hpv hnum
                  obtain ⟨w1, rfl, hw1⟩ := skipWs_decomp r1 _ heqw1
                  obtain ⟨w2, hw2eq, hw2⟩ := skipWs_decomp r2 _ rfl
                  rw [hcv] at hw2eq
                  obtain ⟨w3, hw3eq, hw3⟩ := skipWs_decomp r3 _ heqw3
                  refine ⟨'"' :: (ck ++ (w1 ++ (':' :: (w2 ++ (cv ++ (w3 ++ [rbrace])))))),
                    by rw [hw2eq, hw3eq]; simp, ⟨_, rfl⟩, ?_⟩
                  intro r₀ g hg
                  have hscv : stripControl cv = chv :: stripControl tv := by
                    rw [hchv]
                    exact strip_cons_kept _ _ hkv
                  have hsc : stripControl ('"' :: (ck ++ (w1 ++ (':' :: (w2 ++ (cv ++ (w3 ++ [rbrace])))))) : List Char)
                      = '"' :: (ck ++ (stripControl w1 ++ (':' :: (stripControl w2 ++ (stripControl cv ++ (stripControl w3 ++ [rbrace])))))) := by
                    rw [strip_cons_kept '"' _ rfl, strip_append, strip_all_kept _ hkck,
                      strip_append, strip_cons_kept ':' _ rfl, strip_append, strip_append,
                      strip_append]
                    rfl
                  rw [hsc] at hg ⊢
                  rw [hscv] at hg
                  simp only [List.length_cons, List.length_append] at hg
                  obtain ⟨g', rfl⟩ : ∃ g', g = g' + 1 := ⟨g - 1, by omega⟩
                  simp only [List.cons_append, List.append_assoc, List.singleton_append, List.nil_append]
                  rw [parseMembers_succ_quote, replayK _ g' (by omega)]
                  have hskip1 : skipWs (stripControl w1 ++ (':' :: (stripControl w2 ++ (stripControl cv ++ (stripControl w3 ++ (rbrace :: r₀))))))
                      = ':' :: (stripControl w2 ++ (stripControl cv ++ (stripControl w3 ++ (rbrace :: r₀)))) := by
                    rw [skipWs_append_ws _ _ (strip_ws_all_ws w1 hw1)]
                    exact skipWs_cons_of_neg _ _ rfl
                  have hskip2 : skipWs (stripControl w2 ++ (stripControl cv ++ (stripControl w3 ++ (rbrace :: r₀))))
                      = stripControl cv ++ (stripControl w3 ++ (rbrace :: r₀)) := by
                    rw [skipWs_append_ws _ _ (strip_ws_all_ws w2 hw2), hscv, List.cons_append]
                    exact skipWs_cons_of_neg _ _ hwv
                  have hskip3 : skipWs (stripControl w3 ++ (rbrace :: r₀)) = rbrace :: r₀ := by
                    rw [skipWs_append_ws _ _ (strip_ws_all_ws w3 hw3)]
                    exact skipWs_cons_of_neg _ _ (by decide)
                  have hv := replayV (stripControl w3 ++ (rbrace :: r₀)) g'
                    (by rw [hscv]; simp only [List.length_cons]; omega)
                  simp [hskip1, hskip2, hskip3, hv]
                · -- comma, further members
                  rename_i hrb
                  split at h
                  · rename_i hcm
                    have hd : d = ',' := by simpa using hcm
                    subst hd
                    split at h
                    · rename_i ms' r6 hpm
                      injection h with hpair
                      injection hpair with hm hr
                      subst hm
                      subst hr
                      simp only [numFreePairs, Bool.and_eq_true] at hnums
                      obtain ⟨hnum1, hnum2⟩ := hnums
                      obtain ⟨ck, rfl, hkck, replayK⟩ := parseStringBody_spec _ _ _ _ hsb
                      obtain ⟨cv, hcv, ⟨chv, tv, hchv, hkv, hwv, hnv⟩, _, replayV⟩ := ihV _ _ _ hpv hnum1
                      obtain ⟨cM2, hcM2, ⟨tM2, hcM2h⟩, replayM2⟩ := ihM _ _ _ hpm hnum2
                      obtain ⟨w1, rfl, hw1⟩ := skipWs_decomp r1 _ heqw1
                      obtain ⟨w2, hw2eq, hw2⟩ := skipWs_decomp r2 _ rfl
                      rw [hcv] at hw2eq
                      obtain ⟨w3, hw3eq, hw3⟩ := skipWs_decomp r3 _ heqw3
                      obtain ⟨w4, hw4eq, hw4⟩ := skipWs_decomp r5 _ rfl
                      rw [hcM2] at hw4eq
                      refine ⟨'"' :: (ck ++ (w1 ++ (':' :: (w2 ++ (cv ++ (w3 ++ (',' :: (w4 ++ cM2)))))))),
                        by rw [hw2eq, hw3eq, hw4eq]; simp, ⟨_, rfl⟩, ?_⟩
                      intro r₀ g hg
                      have hscv : stripControl cv = chv :: stripControl tv := by
                        rw [hchv]
                        exact strip_cons_kept _ _ hkv
                      have hscM2 : stripControl cM2 = '"' :: stripControl tM2 := by
                        rw [hcM2h]
                        exact strip_cons_kept _ _ rfl
                      have hsc : stripControl ('"' :: (ck ++ (w1 ++ (':' :: (w2 ++ (cv ++ (w3 ++ (',' :: (w4 ++ cM2)))))))) : List Char)
                          = '"' :: (ck ++ (stripControl w1 ++ (':' :: (stripControl w2 ++ (stripControl cv ++ (stripControl w3 ++ (',' :: (stripControl w4 ++ stripControl cM2)))))))) := by
                        rw [strip_cons_kept '"' _ rfl, strip_append, strip_all_kept _ hkck,
                          strip_append, strip_cons_kept ':' _ rfl, strip_append, strip_append,
                          strip_append, strip_cons_kept ',' _ rfl, strip_append]
                      rw [hsc] at hg ⊢
                      rw [hscv, hscM2] at hg
                      simp only [List.length_cons, List.length_append] at hg
                      obtain ⟨g', rfl⟩ : ∃ g', g = g' + 1 := ⟨g - 1, by omega⟩
                      simp only [List.cons_append, List.append_assoc, List.singleton_append, List.nil_append]
                      rw [parseMembers_succ_quote, replayK _ g' (by omega)]
                      have hskip1 : skipWs (stripControl w1 ++ (':' :: (stripControl w2 ++ (stripControl cv ++ (stripControl w3 ++ (',' :: (stripControl w4 ++ (stripControl cM2 ++ r₀))))))))
                          = ':' :: (stripControl w2 ++ (stripControl cv ++ (stripControl w3 ++ (',' :: (stripControl w4 ++ (stripControl cM2 ++ r₀)))))) := by
                        rw [skipWs_append_ws _ _ (strip_ws_all_ws w1 hw1)]
                        exact skipWs_cons_of_neg _ _ rfl
                      have hskip2 : skipWs (stripControl w2 ++ (stripControl cv ++ (stripControl w3 ++ (',' :: (stripControl w4 ++ (stripControl cM2 ++ r₀))))))
                          = stripControl cv ++ (stripControl w3 ++ (',' :: (stripControl w4 ++ (stripControl cM2 ++ r₀)))) := by
                        rw [skipWs_append_ws _ _ (strip_ws_all_ws w2 hw2), hscv, List.cons_append]
                        exact skipWs_cons_of_neg _ _ hwv
                      have hskip3 : skipWs (stripControl w3 ++ (',' :: (stripControl w4 ++ (stripControl cM2 ++ r₀))))
                          = ',' :: (stripControl w4 ++ (stripControl cM2 ++ r₀)) := by
                        rw [skipWs_append_ws _ _ (strip_ws_all_ws w3 hw3)]
                        exact skipWs_cons_of_neg _ _ rfl
                      have hskip4 : skipWs (stripControl w4 ++ (stripControl cM2 ++ r₀))
                          = stripControl cM2 ++ r₀ := by
                        rw [skipWs_append_ws _ _ (strip_ws_all_ws w4 hw4), hscM2, List.cons_append]
                        exact skipWs_cons_of_neg _ _ rfl
                      have hv := replayV (stripControl w3 ++ (',' :: (stripControl w4 ++ (stripControl cM2 ++ r₀)))) g'
                        (by rw [hscv]; simp only [List.length_cons]; omega)
                      have hrm := replayM2 r₀ g' (by rw [hscM2]; simp only [List.length_cons]; omega)
                      have hne : ¬((',' : Char) = rbrace) := by decide
                      simp [hskip1, hskip2, hskip3, hskip4, hv, hrm, hne]
                    · exact absurd h (by simp)
                  · exact absurd h (by simp)
            · exact absurd h (by simp)
          · exact absurd h (by simp)
        · exact absurd h (by simp)
      · exact absurd h (by simp)

/-! ### Recovery claims -/

/-- A value matching the spec concern-object schema contains no numeric
leaf. -/
theorem specConcernObj_numFree (j : Json) (h : specConcernObj j = true) :
    numFree j = true := by
  unfold specConcernObj at h
  split at h
  · simp [numFree, numFreePairs]
  · exact absurd h (by simp)

/-- A list of values matching the spec concern-object schema contains no
numeric leaf. -/
theorem specConcernList_numFree (l : List Json)
    (h : l.all specConcernObj = true) : numFreeList l = true := by
  induction l with
  | nil => rfl
  | cons a t iht =>
    simp only [List.all_cons, Bool.and_eq_true] at h
    simp only [numFreeList, Bool.and_eq_true]
    exact ⟨specConcernObj_numFree a h.1, iht h.2⟩

/-- A batch matching the spec schema contains no numeric leaf. -/
theorem specConcernBatch_numFree (v : Json) (h : specConcernBatch v = true) :
    numFree v = true := by
  cases v with
  | arr l => exact specConcernList_numFree l h
  | null => exact absurd h (by simp [specConcernBatch])
  | bool b => exact absurd h (by simp [specConcernBatch])
  | num n => exact absurd h (by simp [specConcernBatch])
  | str s => exact absurd h (by simp [specConcernBatch])
  | obj ms => exact absurd h (by simp [specConcernBatch])

/-- CLAIM C6 (amended): every raw response that parses directly as a JSON
array of concern objects and contains no smart-quote characters parses to
the same batch through the repair chain; in particular whitespace padding
and control characters, as in a pretty-printed response, are allowed. -/
theorem schema_response_roundtrip (s : List Char) (v : Json)
    (hparse : parseJSONL s = some v)
    (hschema : specConcernBatch v = true)
    (hnosmart : s.all (fun c => !(isSmartQuote c)) = true) :
    fixJSON s = some v := by
  have hnum : numFree v = true := specConcernBatch_numFree v hschema
  obtain ⟨xs, rfl⟩ : ∃ xs, v = Json.arr xs := by
    cases v
    case arr xs => exact ⟨xs, rfl⟩
    all_goals exact absurd hschema (by simp [specConcernBatch])
  unfold parseJSONL at hparse
  split at hparse
  · rename_i v₀ r heqV
    split at hparse
    · rename_i hrnil
      injection hparse with hv
      subst hv
      obtain ⟨c, hdec, ⟨ch, t, hct, hkc, hwc, hnc⟩, hshape, replay⟩ :=
        (parseReplay (2 * s.length + 2)).1 _ _ _ heqV hnum
      obtain ⟨hhead, hlast⟩ := hshape xs rfl
      obtain ⟨w0, hs0, hw0⟩ := skipWs_decomp s _ rfl
      rw [hdec] at hs0
      have hrws : ∀ x ∈ r, isWsChar x = true := skipWs_nil_all_ws r hrnil
      have hext : extractArray s = some c := by
        rw [hs0, ← List.append_assoc]
        exact extractArray_eq_some_of_wrap w0 c r
          (fun x hx => ws_not_lbrack x (hw0 x hx))
          (fun x hx => ws_not_rbrack x (hrws x hx))
          hhead hlast
      have hmem : ∀ x ∈ c, x ∈ s := by
        intro x hx
        rw [hs0]
        simp [hx]
      have hall := List.all_eq_true.mp hnosmart
      have hrep : replaceSmartQuotes c = c := by
        unfold replaceSmartQuotes
        have hpt : ∀ x ∈ c, smartRep x = x := by
          intro x hx
          have hxs := hall x (hmem x hx)
          simp only [Bool.not_eq_true'] at hxs
          exact smartRep_eq_self x hxs
        calc c.map smartRep = c.map id := List.map_congr_left hpt
        _ = c := List.map_id c
      have hchain : repairChain s = some (stripControl c) := by
        unfold repairChain
        rw [hext]
        simp only [Option.map_some']
        rw [hrep]
      have hsc : stripControl c = ch :: stripControl t := by
        rw [hct]
        exact strip_cons_kept _ _ hkc
      have hskipc : skipWs (stripControl c) = stripControl c := by
        rw [hsc]
        exact skipWs_cons_of_neg _ _ hwc
      have hreplay := replay [] (2 * (stripControl c).length + 2) (by omega)
      rw [List.append_nil] at hreplay
      have hfinal : parseJSONL (stripControl c) = some (Json.arr xs) := by
        unfold parseJSONL
        rw [hskipc, hreplay]
        rfl
      unfold fixJSON
      rw [hchain]
      exact hfinal
    · exact absurd hparse (by simp)
  · exact absurd hparse (by simp)

/-- Counterexample to C6 as stated: a response matching the expected
schema whose quoted excerpt contains smart quotes parses directly but is
destroyed by the quote normalisation of the repair chain, so the two
parses are not the same. -/
theorem schema_response_roundtrip_counterexample :
    parseJSONL ("[\x7b\"section\": \"a\", \"quote\": \"“b”\", \"concern\": \"c\"\x7d]").data
      = some (Json.arr [Json.obj [("section", Json.str "a"), ("quote", Json.str "“b”"),
          ("concern", Json.str "c")]])
    ∧ specConcernBatch (Json.arr [Json.obj [("section", Json.str "a"),
          ("quote", Json.str "“b”"), ("concern", Json.str "c")]]) = true
    ∧ fixJSON ("[\x7b\"section\": \"a\", \"quote\": \"“b”\", \"concern\": \"c\"\x7d]").data
      = none :=
  ⟨rfl, rfl, rfl⟩

/-- Witness for the amended C6 at a pretty-printed, whitespace-padded
schema response: newlines inside and padding around the array survive the
round trip. -/
theorem schema_response_roundtrip_witness :
    fixJSON ("  [\n  \x7b\"section\": \"s\",\n  \"quote\": \"q\",\n  \"concern\": \"c\"\x7d\n]\n").data
      = some (Json.arr [Json.obj [("section", Json.str "s"), ("quote", Json.str "q"),
          ("concern", Json.str "c")]]) :=
  schema_response_roundtrip
    ("  [\n  \x7b\"section\": \"s\",\n  \"quote\": \"q\",\n  \"concern\": \"c\"\x7d\n]\n").data
    (Json.arr [Json.obj [("section", Json.str "s"), ("quote", Json.str "q"),
      ("concern", Json.str "c")]])
    rfl rfl rfl

/-- CLAIM C5 (amended): when the response holds no bracketed substring the
recoverer raises the fixed error of line 145 instead of returning any
(possibly empty) concern list; the error message is a constant, so it
carries neither the raw response text nor the segment ordinal. -/
theorem no_array_error_fixed (r : List Char) (o : Option Nat)
    (h : extractArray r = none) :
    recoverChunk r o = Except.error errNoArray := by
  unfold recoverChunk
  rw [h]

/-- Witness for the amended C5. -/
theorem no_array_error_fixed_witness :
    recoverChunk ("No JSON here.").data (some 1) = Except.error errNoArray :=
  no_array_error_fixed ("No JSON here.").data (some 1) rfl

/-- Counterexample to C5 as stated: for a delimiter-free response the
raised error is the same fixed message whatever the segment ordinal, the
message does not contain the raw response text, and it contains no digit
at all, so it cannot reference the failing segment ordinal. -/
theorem no_array_error_counterexample :
    recoverChunk ("I could not find any concerning clauses.").data (some 2)
      = Except.error errNoArray
    ∧ recoverChunk ("I could not find any concerning clauses.").data (some 5)
      = Except.error errNoArray
    ∧ containsSeg ("I could not find any concerning clauses.").data errNoArray.data = false
    ∧ errNoArray.data.any (fun c => isDigitChar c) = false :=
  ⟨rfl, rfl, rfl, rfl⟩

/-- CLAIM C9 (amended): for a response made of an opening-bracket-free
prefix, a bracketed payload and a closing-bracket-free suffix, the
recoverer extracts exactly the payload (first opening bracket to last
closing bracket) and parses it, repairing once on failure.  Only square
brackets are located: a bare JSON object payload is rejected, as the
counterexample records. -/
theorem extract_surrounded_payload (pre sub post : List Char) (o : Option Nat)
    (hpre : pre.all (fun c => !(c == '[')) = true)
    (hpost : post.all (fun c => !(c == ']')) = true)
    (hh : sub.head? = some '[')
    (hl : sub.getLast? = some ']') :
    recoverChunk (pre ++ sub ++ post) o = parseElseRepair sub := by
  have hpre' : ∀ c ∈ pre, (c == '[') = false := by
    intro c hc
    have hx := List.all_eq_true.mp hpre c hc
    simpa using hx
  have hpost' : ∀ c ∈ post, (c == ']') = false := by
    intro c hc
    have hx := List.all_eq_true.mp hpost c hc
    simpa using hx
  unfold recoverChunk
  rw [extractArray_eq_some_of_wrap pre sub post hpre' hpost' hh hl]

/-- Witness for the amended C9: free text around an array payload is
recovered. -/
theorem extract_surrounded_payload_witness :
    recoverChunk ("Here are the concerns: ".data ++ "[1]".data ++ " Done.".data) none
      = Except.ok (Json.arr [Json.num "1"]) := by
  have h := extract_surrounded_payload "Here are the concerns: ".data "[1]".data
    " Done.".data none rfl rfl rfl rfl
  rw [h]
  rfl

/-- Counterexample to C9 as stated: a response whose structured payload is
a bare JSON object, with no square bracket anywhere, is rejected with the
extraction error instead of being recovered. -/
theorem extract_surrounded_payload_counterexample :
    recoverChunk ("\x7b\"section\": \"4.2\", \"quote\": \"q\", \"concern\": \"c\"\x7d").data
        (some 1)
      = Except.error errNoArray :=
  rfl

/-- CLAIM C10: the recoverer performs no schema validation: whenever the
extracted substring parses as JSON, the parse result is returned as the
concern batch unchanged, whatever shape it has. -/
theorem recover_no_schema_validation (r : List Char) (o : Option Nat)
    (sub : List Char) (v : Json)
    (hext : extractArray r = some sub)
    (hparse : parseJSONL sub = some v) :
    recoverChunk r o = Except.ok v := by
  have hred : recoverChunk r o = parseElseRepair sub := by
    unfold recoverChunk
    rw [hext]
  rw [hred]
  unfold parseElseRepair
  rw [hparse]

/-- Witness for C10: a JSON array of bare numbers, which does not match
the concern schema at all, is returned as-is. -/
theorem recover_no_schema_validation_witness :
    recoverChunk ("[1, 2, 3]").data none
      = Except.ok (Json.arr [Json.num "1", Json.num "2", Json.num "3"])
    ∧ specConcernBatch (Json.arr [Json.num "1", Json.num "2", Json.num "3"]) = false :=
  ⟨recover_no_schema_validation ("[1, 2, 3]").data none ("[1, 2, 3]").data
      (Json.arr [Json.num "1", Json.num "2", Json.num "3"]) rfl rfl,
   rfl⟩

/-- CLAIM C4 (amended): the repair chain applies, in this fixed order:
re-extract the bracketed substring, normalise smart quotation marks, strip
control characters — and nothing else.  It has no trailing-comma removal,
so the spec example still holds its trailing comma after the chain runs
and still fails to parse, making the recovery fail with the fixed parse
error. -/
theorem fixJSON_no_trailing_comma_removal :
    repairChain ("[\x7b“section”: “4.2”,\x7d]").data
      = some ("[\x7b\"section\": \"4.2\",\x7d]").data
    ∧ parseJSONL ("[\x7b\"section\": \"4.2\",\x7d]").data = none
    ∧ recoverChunk ("[\x7b“section”: “4.2”,\x7d]").data (some 1)
      = Except.error errParseFix :=
  ⟨rfl, rfl, rfl⟩

/-- Counterexample to C4 as stated: the spec example input fails direct
parse (as the claim says) but also still fails after the repair chain,
because the chain removes no trailing comma. -/
theorem fixJSON_trailing_comma_counterexample :
    parseJSONL ("[\x7b“section”: “4.2”,\x7d]").data = none
    ∧ fixJSON ("[\x7b“section”: “4.2”,\x7d]").data = none :=
  ⟨rfl, rfl⟩

/-! ### Aggregation claims -/

theorem recoverChunk_ordinal (r : List Char) (o o' : Option Nat) :
    recoverChunk r o = recoverChunk r o' := rfl

theorem runSegmentsAux_ok (respond : Nat → List Char) (vs : Nat → Json) :
    ∀ (k i : Nat) (acc : List Json),
      (∀ j, j < k → recoverChunk (respond (i + j)) none = Except.ok (vs (i + j))) →
      runSegmentsAux respond k i acc
        = Except.ok (acc ++ ((List.range k).map (fun j => toBatch (vs (i + j)))).flatten) := by
  intro k
  induction k with
  | zero =>
    intro i acc h
    simp [runSegmentsAux]
  | succ k ih =>
    intro i acc h
    have h0 : recoverChunk (respond i) (some (i + 1)) = Except.ok (vs i) := by
      rw [recoverChunk_ordinal (respond i) (some (i + 1)) none]
      simpa using h 0 (Nat.succ_pos _)
    have hstep : runSegmentsAux respond (k + 1) i acc
        = runSegmentsAux respond k (i + 1) (acc ++ toBatch (vs i)) := by
      simp only [runSegmentsAux]
      rw [h0]
    rw [hstep, ih (i + 1) (acc ++ toBatch (vs i)) (fun j hj => by
      have hx := h (j + 1) (Nat.succ_lt_succ hj)
      have harith : i + (j + 1) = i + 1 + j := by omega
      rw [harith] at hx
      exact hx)]
    rw [List.range_succ_eq_map]
    simp only [List.map_cons, List.flatten_cons, List.map_map]
    rw [List.append_assoc]
    have hfun : ((fun j => toBatch (vs (i + j))) ∘ Nat.succ)
        = (fun j => toBatch (vs (i + 1 + j))) := by
      funext j
      simp only [Function.comp_apply]
      rw [show i + (j + 1) = i + 1 + j from by omega]
    rw [hfun]
    rw [show i + 0 = i from rfl]

/-- CLAIM C8: when every per-segment recovery succeeds, the pipeline output
equals the concatenation of the recovered per-segment batches in strictly
ascending segment order. -/
theorem summarize_concats_in_order (respond : Nat → List Char) (doc : List Char)
    (B : Nat) (vs : Nat → Json)
    (h : ∀ i, i < (segment doc B).length →
      recoverChunk (respond i) none = Except.ok (vs i)) :
    summarizePolicy respond doc B
      = Except.ok
          (((List.range (segment doc B).length).map (fun i => toBatch (vs i))).flatten) := by
  unfold summarizePolicy
  by_cases hle : doc.length ≤ B
  · rw [if_pos hle]
    have hlen : (segment doc B).length = 1 := by
      unfold segment
      rw [if_pos hle]
      rfl
    have h0 := h 0 (by omega)
    rw [h0, hlen]
    rw [show List.range 1 = [0] from rfl]
    simp
  · rw [if_neg hle]
    have hlen : (segment doc B).length = ceilDiv doc.length B := by
      unfold segment
      rw [if_neg hle]
      simp
    rw [runSegmentsAux_ok respond vs (ceilDiv doc.length B) 0 []
      (fun j hj => by
        have hx := h j (by rw [hlen]; simpa using hj)
        simpa using hx)]
    rw [hlen]
    simp

/-- Witness for C8: a 5-character document with budget 2 yields three
segments; with per-segment responses parsing to one number each, the
output is those numbers in segment order. -/
theorem summarize_concats_in_order_witness :
    summarizePolicy
        (fun i => if i = 0 then "[1]".data else if i = 1 then "[2]".data else "[3]".data)
        ("abcde".data) 2
      = Except.ok [Json.num "1", Json.num "2", Json.num "3"] := by
  have h := summarize_concats_in_order
    (fun i => if i = 0 then "[1]".data else if i = 1 then "[2]".data else "[3]".data)
    "abcde".data 2
    (fun i => if i = 0 then Json.arr [Json.num "1"]
      else if i = 1 then Json.arr [Json.num "2"] else Json.arr [Json.num "3"])
    (by
      intro i hi
      have hlen : (segment "abcde".data 2).length = 3 := rfl
      rw [hlen] at hi
      interval_cases i <;> rfl)
  rw [h]
  rfl

end ClearPolicy
